import Mathlib

/-!
# conf/aggregations.go

A shallow embedding of `Aggregations` (the ordered aggregation rules of a
storage-aggregation.conf file), of its constructor `NewAggregations`, of the
section loop of `ReadAggregations`, and of the two queries `Match` and `Get`.

Conventions of the embedding:

* `uint16` values are `Fin 65536`; every conversion `uint16(n)` and the sum
  `i+1` are written with an explicit `% 65536`.
* A Go panic (index out of range, nil pointer dereference) is `none`.
* A Go `(value, error)` pair is a Lean pair whose second component is
  `Option String`, the text of `err.Error()`; `none` is a nil error.
* The libraries the file calls (`regexp`, `strconv`, `fmt`'s `%q`) and the
  sibling declarations `Method`, `NewMethod`, `Avg` are the fields of `GoLib`;
  the general theorems hold for all of them, and the evaluations at concrete
  inputs are made in the environment `example_env.lib`.
* Go strings are byte strings; the embedding uses Lean strings, so it covers
  the inputs that are valid UTF-8.
-/

namespace conf

/-! ## The environment of the file -/

/-- The types and functions `aggregations.go` takes from its imports and from
the rest of package `conf`. -/
structure GoLib where
  /-- The type `regexp.Regexp`. -/
  Regexp : Type
  /-- The type `float64`. -/
  Float64 : Type
  /-- The type `conf.Method`. -/
  Method : Type
  /-- The function `regexp.Compile`; the error is `err.Error()`. -/
  Compile : String → Except String Regexp
  /-- The method `(*Regexp).MatchString` on a non-nil receiver. -/
  MatchString : Regexp → String → Bool
  /-- The function `strconv.ParseFloat(_, 64)`; the error is `err.Error()`. -/
  ParseFloat : String → Except String Float64
  /-- The function `conf.NewMethod`; the error is `err.Error()`. -/
  NewMethod : String → Except String Method
  /-- The constant `conf.Avg`. -/
  Avg : Method
  /-- The rendering of a string by the verb `%q` of package `fmt`. -/
  Quote : String → String
  /-- The `float64` zero value. -/
  zero : Float64
  /-- The `float64` constant `0.5`. -/
  half : Float64
  /-- The value of `regexp.MustCompile(".*")`. -/
  dotStar : Regexp
  /-- The pattern `.*` compiles, so `MustCompile` does not panic on it. -/
  Compile_dotStar : Compile ".*" = Except.ok dotStar
  /-- The pattern `.*` has the empty match at offset 0 of every string. -/
  MatchString_dotStar : ∀ s : String, MatchString dotStar s = true

/-- The conversion `uint16(n)` of a non-negative `int`. -/
def uint16 (n : Nat) : Fin 65536 := ⟨n % 65536, Nat.mod_lt n (by decide)⟩

/-! ## Package `strings` on single-character separators -/

namespace strings

/-- The first occurrence of `sep` cuts the text in two: what is before it and
what is after it (`strings.Index` followed by the two slices of `genSplit`). -/
def cut (sep : Char) : List Char → Option (List Char × List Char)
  | [] => none
  | c :: cs =>
    if c = sep then some ([], cs)
    else match cut sep cs with
      | none => none
      | some (before, after) => some (c :: before, after)

/-- The loop of `genSplit` for a count `n ≥ 0` of substrings: at most `n`
pieces, the last one being the unsplit remainder. -/
def genSplit (sep : Char) : Nat → List Char → List (List Char)
  | 0, _ => []
  | 1, s => [s]
  | n + 2, s =>
    match cut sep s with
    | none => [s]
    | some (before, after) => before :: genSplit sep (n + 1) after

/-- The function `strings.SplitN(s, sep, n)` for a one-character `sep` and
`n ≥ 0`. -/
def SplitN (s : String) (sep : Char) (n : Nat) : List String :=
  (genSplit sep n s.data).map String.mk

/-- The function `strings.Split(s, sep)` for a one-character `sep`: `genSplit`
with `n = strings.Count(s, sep) + 1`. -/
def Split (s : String) (sep : Char) : List String :=
  (genSplit sep (s.data.count sep + 1) s.data).map String.mk

/-- The function `strings.Trim(s, cutset)`: the characters of `cutset` are
removed from both ends. -/
def Trim (s : String) (cutset : String) : String :=
  String.mk (((s.data.dropWhile (fun c => cutset.data.contains c)).reverse.dropWhile
    (fun c => cutset.data.contains c)).reverse)

/-- The function `strings.HasPrefix(s, pre)`. -/
def HasPrefix (s : String) (pre : String) : Bool :=
  pre.data.isPrefixOf s.data

/-- Whether the text `p` starts at some offset of the text given. -/
def occurs (p : List Char) : List Char → Bool
  | [] => p.isPrefixOf []
  | c :: cs => p.isPrefixOf (c :: cs) || occurs p cs

/-- The function `strings.Contains(s, substr)`. -/
def Contains (s substr : String) : Bool :=
  occurs substr.data s.data

end strings

/-! ## The data model -/

/-- The struct `Aggregation`. The field `Pattern` is a pointer: `none` is nil. -/
structure Aggregation (L : GoLib) where
  Name : String
  Pattern : Option L.Regexp
  XFilesFactor : L.Float64
  AggregationMethod : List L.Method

/-- The struct `Aggregations`. -/
structure Aggregations (L : GoLib) where
  Data : List (Aggregation L)
  DefaultAggregation : Aggregation L

/-- A section as the config reader hands it over: the text `s.String()` and
the lookup `s.ValueOf`. -/
structure Section where
  /-- The result of `s.String()`. -/
  str : String
  /-- The method `s.ValueOf`. -/
  ValueOf : String → String

/-- The function `NewAggregations`. -/
def NewAggregations (L : GoLib) : Aggregations L :=
  { Data := []
    DefaultAggregation :=
      { Name := "default"
        Pattern := some L.dotStar
        XFilesFactor := L.half
        AggregationMethod := [L.Avg] } }

/-- The composite literal `Aggregations{}`: every field has its zero value. -/
def Aggregations.zeroValue (L : GoLib) : Aggregations L :=
  { Data := []
    DefaultAggregation :=
      { Name := ""
        Pattern := none
        XFilesFactor := L.zero
        AggregationMethod := [] } }

/-! ## Match and Get -/

/-- The loop `for i, s := range a.Data` of `Match`, entered at position `i`
with the rules from there on, and the `return` after it. Calling
`MatchString` through a nil `Pattern` panics. -/
def Aggregations.matchFrom {L : GoLib} (a : Aggregations L) (metric : String) :
    Nat → List (Aggregation L) → Option (Fin 65536 × Aggregation L)
  | _, [] => some (uint16 a.Data.length, a.DefaultAggregation)
  | i, s :: rest =>
    match s.Pattern with
    | none => none
    | some re =>
      if L.MatchString re metric then some (uint16 i, s)
      else a.matchFrom metric (i + 1) rest

/-- The method `Aggregations.Match`. -/
def Aggregations.Match {L : GoLib} (a : Aggregations L) (metric : String) :
    Option (Fin 65536 × Aggregation L) :=
  a.matchFrom metric 0 a.Data

/-- The method `Aggregations.Get`. The sum `i+1` is a `uint16` sum; the index
expression `a.Data[i]` panics when `i` is not below `len(a.Data)`. -/
def Aggregations.Get {L : GoLib} (a : Aggregations L) (i : Fin 65536) :
    Option (Aggregation L) :=
  if uint16 (i.val + 1) > uint16 a.Data.length then some a.DefaultAggregation
  else a.Data[i.val]?

/-! ## ReadAggregations -/

/-- The expression `strings.Trim(strings.SplitN(s.String(), "\n", 2)[0], " []")`.
`SplitN` with `n = 2` never returns an empty slice, so the index 0 is in range. -/
def Section.name (s : Section) : String :=
  strings.Trim ((strings.SplitN s.str '\n' 2).headD "") " []"

/-- The test `item.Name == "" || strings.HasPrefix(item.Name, "#")`. -/
def Section.skipped (s : Section) : Bool :=
  decide (s.name = "") || strings.HasPrefix s.name "#"

/-- The slice `methodStrs`: `strings.Split(s.ValueOf("aggregationMethod"), ",")`. -/
def Section.methodStrs (s : Section) : List String :=
  strings.Split (s.ValueOf "aggregationMethod") ','

/-- The loop `for _, methodStr := range methodStrs`: `acc` is
`item.AggregationMethod` so far; the error is the formatted
`"[%s]: %s"`. -/
def parseMethods (L : GoLib) (name : String) :
    List String → List L.Method → Except String (List L.Method)
  | [], acc => Except.ok acc
  | methodStr :: rest, acc =>
    match L.NewMethod methodStr with
    | Except.error e => Except.error ("[" ++ name ++ "]: " ++ e)
    | Except.ok agg => parseMethods L name rest (acc ++ [agg])

/-- The loop `for _, s := range sections` of `ReadAggregations` and the
`return result, nil` after it. -/
def readSections (L : GoLib) : List Section → Aggregations L → Aggregations L × Option String
  | [], result => (result, none)
  | s :: rest, result =>
    if s.skipped then readSections L rest result
    else
      match L.Compile (s.ValueOf "pattern") with
      | Except.error e =>
        (Aggregations.zeroValue L,
          some ("[" ++ s.name ++ "]: failed to parse pattern "
            ++ L.Quote (s.ValueOf "pattern") ++ ": " ++ e))
      | Except.ok re =>
        match L.ParseFloat (s.ValueOf "xFilesFactor") with
        | Except.error e =>
          (Aggregations.zeroValue L,
            some ("[" ++ s.name ++ "]: failed to parse xFilesFactor "
              ++ L.Quote (s.ValueOf "xFilesFactor") ++ ": " ++ e))
        | Except.ok x =>
          match parseMethods L s.name s.methodStrs [] with
          | Except.error e => (result, some e)
          | Except.ok methods =>
            readSections L rest
              { result with
                Data := result.Data ++
                  [{ Name := s.name, Pattern := some re, XFilesFactor := x,
                     AggregationMethod := methods }] }

/-- The function `ReadAggregations` from `result := NewAggregations()` on,
given the sections `config.AllSections()` returned. -/
def ReadAggregations (L : GoLib) (sections : List Section) : Aggregations L × Option String :=
  readSections L sections (NewAggregations L)

/-! ## Predicates of the statements -/

/-- Whether the rule's pattern matches the metric somewhere; a rule without a
compiled pattern matches nothing. -/
def Aggregation.matches {L : GoLib} (s : Aggregation L) (metric : String) : Bool :=
  match s.Pattern with
  | none => false
  | some re => L.MatchString re metric

/-- The invariant of the data model: every rule of `Data` carries a compiled
pattern (no nil pointer). -/
def Aggregations.Compiled {L : GoLib} (a : Aggregations L) : Prop :=
  ∀ s ∈ a.Data, s.Pattern.isSome = true

instance {L : GoLib} (a : Aggregations L) : Decidable a.Compiled :=
  inferInstanceAs (Decidable (∀ s ∈ a.Data, s.Pattern.isSome = true))

/-- The text of the error of a result, `none` for a result without error. -/
def errorOf {α : Type} : Except String α → Option String
  | Except.error e => some e
  | Except.ok _ => none

/-- The message of a pattern error: the rule name, the quoted pattern text and
the compiler's reason. -/
def Section.patternMessage (L : GoLib) (s : Section) (e : String) : String :=
  "[" ++ s.name ++ "]: failed to parse pattern " ++ L.Quote (s.ValueOf "pattern") ++ ": " ++ e

/-- The message of a ratio error: the rule name, the xFilesFactor text and the
parser's reason. -/
def Section.ratioMessage (L : GoLib) (s : Section) (e : String) : String :=
  "[" ++ s.name ++ "]: failed to parse xFilesFactor " ++ L.Quote (s.ValueOf "xFilesFactor")
    ++ ": " ++ e

/-- The message of a method error: the rule name and the reason `NewMethod`
gives. -/
def Section.methodMessage (s : Section) (e : String) : String :=
  "[" ++ s.name ++ "]: " ++ e

/-- The check that the pattern compiles: `some` of the message when it fails. -/
def Section.patternCheck (L : GoLib) (s : Section) : Option String :=
  errorOf ((L.Compile (s.ValueOf "pattern")).mapError (s.patternMessage L))

/-- The check that the xFilesFactor parses: `some` of the message when it
fails. -/
def Section.ratioCheck (L : GoLib) (s : Section) : Option String :=
  errorOf ((L.ParseFloat (s.ValueOf "xFilesFactor")).mapError (s.ratioMessage L))

/-- The check that one method token parses: `some` of the message when it
fails. -/
def Section.methodCheck (L : GoLib) (s : Section) (t : String) : Option String :=
  errorOf ((L.NewMethod t).mapError s.methodMessage)

/-- The checks of one section in the order of the spec: the pattern compiles,
then the xFilesFactor parses, then one check per method token from left to
right. -/
def Section.checks (L : GoLib) (s : Section) : List (Option String) :=
  [s.patternCheck L, s.ratioCheck L] ++ s.methodStrs.map (s.methodCheck L)

/-- The sections that are rules: those the build does not skip. -/
def ruleSections (sections : List Section) : List Section :=
  sections.filter (fun s => !s.skipped)

/-- The error of the first failing check, taken in section order over the
sections that are rules and in the order of `checks` within a section. -/
def firstError (L : GoLib) (sections : List Section) : Option String :=
  ((ruleSections sections).map (Section.checks L)).flatten.findSome? id

/-- The methods a list of tokens stands for, in token order, when every token
parses. -/
def methodsOf (L : GoLib) : List String → Option (List L.Method)
  | [] => some []
  | t :: ts =>
    match L.NewMethod t, methodsOf L ts with
    | Except.ok m, some ms => some (m :: ms)
    | _, _ => none

/-- A well-formed section: the pattern compiles, the xFilesFactor parses and
every comma-separated method token parses. -/
def Section.wellFormed (L : GoLib) (s : Section) : Bool :=
  (L.Compile (s.ValueOf "pattern")).toOption.isSome
    && (L.ParseFloat (s.ValueOf "xFilesFactor")).toOption.isSome
    && s.methodStrs.all (fun t => (L.NewMethod t).toOption.isSome)

/-- The rule a section stands for: its name, its compiled pattern, its ratio
and its methods in token order; `none` when the section is not well-formed. -/
def Section.rule (L : GoLib) (s : Section) : Option (Aggregation L) :=
  match L.Compile (s.ValueOf "pattern"), L.ParseFloat (s.ValueOf "xFilesFactor"),
    methodsOf L s.methodStrs with
  | Except.ok re, Except.ok x, some ms =>
    some { Name := s.name, Pattern := some re, XFilesFactor := x, AggregationMethod := ms }
  | _, _, _ => none

/-! ## A concrete environment for the examples -/

namespace example_env

/-- A regexp of the example dialect: `.*`, or a text of letters and digits
that matches where it occurs. -/
inductive Re where
  | all : Re
  | lit : List Char → Re

/-- Modelled from the spec: the enumeration `Method` of package `conf`, absent
from the sources at hand; the spec lists average, sum, min, max and last. -/
inductive Method where
  | Avg | Sum | Min | Max | Lst
  deriving DecidableEq

/-- Modelled from the spec: the function `NewMethod` of package `conf`, absent
from the sources at hand; a name of the enumeration parses, any other name is
an error. -/
def NewMethod (str : String) : Except String Method :=
  if str = "average" then Except.ok Method.Avg
  else if str = "sum" then Except.ok Method.Sum
  else if str = "min" then Except.ok Method.Min
  else if str = "max" then Except.ok Method.Max
  else if str = "last" then Except.ok Method.Lst
  else Except.error ("unknown aggregation method \"" ++ str ++ "\"")

/-- Whether the text `p` occurs in the text given. -/
def occursIn (p : List Char) : List Char → Bool
  | [] => p.isPrefixOf []
  | c :: cs => p.isPrefixOf (c :: cs) || occursIn p cs

/-- The dialect's compiler: `.*`, texts of letters and digits, and the
unbalanced `(` that `regexp.Compile` rejects. -/
def Compile (expr : String) : Except String Re :=
  if expr = ".*" then Except.ok Re.all
  else if expr.data.all Char.isAlphanum then Except.ok (Re.lit expr.data)
  else if expr = "(" then Except.error "error parsing regexp: missing closing ): `(`"
  else Except.error ("error parsing regexp: not in the example dialect: `" ++ expr ++ "`")

/-- Unanchored matching in the dialect. -/
def MatchString : Re → String → Bool
  | Re.all, _ => true
  | Re.lit p, s => occursIn p s.data

/-- The escaping of `strconv.Quote` on printable ASCII characters: a backslash
goes before each double quote and each backslash. -/
def escape : List Char → List Char
  | [] => []
  | c :: cs => if c = '"' ∨ c = '\\' then '\\' :: c :: escape cs else c :: escape cs

/-- The function `strconv.Quote`, which is also the verb `%q`, on texts of
printable ASCII characters: the escaped text between double quotes. -/
def Quote (s : String) : String :=
  String.mk ('"' :: (escape s.data ++ ['"']))

/-- The value of a text of decimal digits. -/
def digitsValue (ds : List Char) : Nat :=
  ds.foldl (fun n c => 10 * n + (c.toNat - 48)) 0

/-- Decimal numerals `digits` and `digits.digits`, kept as the pair of the
digits read as one number and the count of fractional digits. -/
def ParseFloat (s : String) : Except String (Nat × Nat) :=
  let bad : Except String (Nat × Nat) :=
    Except.error ("strconv.ParseFloat: parsing " ++ Quote s ++ ": invalid syntax")
  match strings.cut '.' s.data with
  | none =>
    if s.data ≠ [] ∧ s.data.all Char.isDigit then Except.ok (digitsValue s.data, 0) else bad
  | some (whole, frac) =>
    if whole ≠ [] ∧ frac ≠ [] ∧ whole.all Char.isDigit ∧ frac.all Char.isDigit then
      Except.ok (digitsValue (whole ++ frac), frac.length)
    else bad

/-- The example environment. Its `Quote` is the `%q` of texts of printable
ASCII characters. -/
def lib : GoLib where
  Regexp := Re
  Float64 := Nat × Nat
  Method := Method
  Compile := Compile
  MatchString := MatchString
  ParseFloat := ParseFloat
  NewMethod := NewMethod
  Avg := Method.Avg
  Quote := Quote
  zero := (0, 0)
  half := (5, 1)
  dotStar := Re.all
  Compile_dotStar := rfl
  MatchString_dotStar := fun _ => rfl

/-- A section with the three keys of a rule; every other key is absent, for
which `ValueOf` returns the empty string. -/
def mkSection (header pattern xFilesFactor aggregationMethod : String) : Section where
  str := header ++ "\npattern = " ++ pattern ++ "\nxFilesFactor = " ++ xFilesFactor
    ++ "\naggregationMethod = " ++ aggregationMethod ++ "\n"
  ValueOf := fun key =>
    if key = "pattern" then pattern
    else if key = "xFilesFactor" then xFilesFactor
    else if key = "aggregationMethod" then aggregationMethod
    else ""

/-- The section `[a]` with `pattern = server`, `xFilesFactor = 0.5` and
`aggregationMethod = average`. -/
def secA : Section := mkSection "[a]" "server" "0.5" "average"

/-- The section `[b]` with `pattern = .*`, `xFilesFactor = 0.1` and
`aggregationMethod = sum,max`. -/
def secB : Section := mkSection "[b]" ".*" "0.1" "sum,max"

/-- The section `[bad]` whose pattern `(` does not compile. -/
def secBad : Section := mkSection "[bad]" "(" "0.5" "average"

/-- The section `[bad2]` whose xFilesFactor is `notanumber`. -/
def secBad2 : Section := mkSection "[bad2]" ".*" "notanumber" "average"

/-- The section `[bad3]` whose aggregation method is `bogus`. -/
def secBad3 : Section := mkSection "[bad3]" ".*" "0.5" "bogus"

/-- A comment section: its header line starts with `#` and none of its values
is well-formed. -/
def secComment : Section := mkSection "[# old rule]" "(" "notanumber" "bogus"

/-- The section `[r]` whose xFilesFactor is the three characters `0`, backslash
and `5`. -/
def secBackslash : Section := mkSection "[r]" ".*" "0\\5" "average"

/-- A section named `default`, like the default rule. -/
def secDefault : Section := mkSection "[default]" "server" "0.1" "sum"

/-- The rule the section `[a]` stands for. -/
def ruleA : Aggregation lib :=
  { Name := "a", Pattern := some (Re.lit "server".data), XFilesFactor := (5, 1),
    AggregationMethod := [Method.Avg] }

/-- The rule the section `[b]` stands for. -/
def ruleB : Aggregation lib :=
  { Name := "b", Pattern := some Re.all, XFilesFactor := (1, 1),
    AggregationMethod := [Method.Sum, Method.Max] }

/-- A rule whose pattern `x` matches the metrics with an `x` in them. -/
def ruleX : Aggregation lib :=
  { Name := "x", Pattern := some (Re.lit "x".data), XFilesFactor := (5, 1),
    AggregationMethod := [Method.Avg] }

/-- The rule set of the two rules `a` and `b`. -/
def twoRules : Aggregations lib :=
  { NewAggregations lib with Data := [ruleA, ruleB] }

/-- A rule set of 65535 rules, each with the pattern `x`. -/
def fullSet : Aggregations lib :=
  { NewAggregations lib with Data := List.replicate 65535 ruleX }

/-- A rule set of 65536 rules, each with the pattern `x`. -/
def overfullSet : Aggregations lib :=
  { NewAggregations lib with Data := List.replicate 65536 ruleX }

end example_env

/-! ## Package `strings`: auxiliary facts -/

/-- For a count of at least one, `genSplit` returns at least one piece; so do
`SplitN` with `n = 2` and `Split`. -/
theorem genSplit_ne_nil (sep : Char) (n : Nat) (s : List Char) :
    strings.genSplit sep (n + 1) s ≠ [] := by
  cases n with
  | zero => simp [strings.genSplit]
  | succ n =>
    simp only [strings.genSplit]
    split <;> simp

/-- The index 0 of `strings.SplitN(s.String(), "\n", 2)` is in range. -/
theorem SplitN_two_ne_nil (s : String) (sep : Char) : strings.SplitN s sep 2 ≠ [] := by
  simpa [strings.SplitN] using genSplit_ne_nil sep 1 s.data

/-! ## Match and Get: auxiliary facts -/

theorem uint16_val_of_lt {n : Nat} (h : n < 65536) : (uint16 n).val = n :=
  Nat.mod_eq_of_lt h

theorem uint16_eq_mk {n : Nat} (h : n < 65536) : uint16 n = ⟨n, h⟩ :=
  Fin.ext (uint16_val_of_lt h)

/-- A rule with a compiled pattern that does not match lets the loop of
`Match` go on to the next position. -/
theorem matchFrom_cons_skip {L : GoLib} (a : Aggregations L) (m : String) (i : Nat)
    (s : Aggregation L) (rest : List (Aggregation L))
    (hs : s.Pattern.isSome = true) (hm : s.matches m = false) :
    a.matchFrom m i (s :: rest) = a.matchFrom m (i + 1) rest := by
  cases hp : s.Pattern with
  | none => simp [hp] at hs
  | some re =>
    have hre : L.MatchString re m = false := by
      simpa [Aggregation.matches, hp] using hm
    simp [Aggregations.matchFrom, hp, hre]

/-- A rule whose pattern matches ends the loop of `Match` at its position. -/
theorem matchFrom_cons_hit {L : GoLib} (a : Aggregations L) (m : String) (i : Nat)
    (s : Aggregation L) (rest : List (Aggregation L)) (hm : s.matches m = true) :
    a.matchFrom m i (s :: rest) = some (uint16 i, s) := by
  cases hp : s.Pattern with
  | none => simp [Aggregation.matches, hp] at hm
  | some re =>
    have hre : L.MatchString re m = true := by
      simpa [Aggregation.matches, hp] using hm
    simp [Aggregations.matchFrom, hp, hre]

/-- When no rule from the current position on matches, the loop of `Match`
runs to its end and the default is returned. -/
theorem matchFrom_no_match {L : GoLib} (a : Aggregations L) (m : String) :
    ∀ (rest : List (Aggregation L)) (i : Nat),
      (∀ s ∈ rest, s.Pattern.isSome = true) → (∀ s ∈ rest, s.matches m = false) →
      a.matchFrom m i rest = some (uint16 a.Data.length, a.DefaultAggregation) := by
  intro rest
  induction rest with
  | nil => intro i _ _; rfl
  | cons s rest ih =>
    intro i hc hno
    rw [matchFrom_cons_skip a m i s rest (hc s (List.mem_cons_self _ _))
      (hno s (List.mem_cons_self _ _))]
    exact ih (i + 1) (fun t ht => hc t (List.mem_cons_of_mem _ ht))
      (fun t ht => hno t (List.mem_cons_of_mem _ ht))

/-- The loop of `Match` stops at the first position whose rule matches. -/
theorem matchFrom_first {L : GoLib} (a : Aggregations L) (m : String) :
    ∀ (rest : List (Aggregation L)) (i k : Nat) (hk : k < rest.length),
      (∀ s ∈ rest, s.Pattern.isSome = true) →
      rest[k].matches m = true →
      (∀ j (hj : j < rest.length), rest[j].matches m = true → k ≤ j) →
      a.matchFrom m i rest = some (uint16 (i + k), rest[k]) := by
  intro rest
  induction rest with
  | nil => intro i k hk; simp at hk
  | cons s rest ih =>
    intro i k hk hc hmatch hmin
    cases k with
    | zero => simpa using matchFrom_cons_hit a m i s rest (by simpa using hmatch)
    | succ k =>
      have hk2 : k < rest.length := by simpa using hk
      have hs : s.matches m = false := by
        cases h : s.matches m with
        | false => rfl
        | true =>
          have := hmin 0 (by simp) (by simpa using h)
          omega
      rw [matchFrom_cons_skip a m i s rest (hc s (List.mem_cons_self _ _)) hs]
      have := ih (i + 1) k hk2 (fun t ht => hc t (List.mem_cons_of_mem _ ht))
        (by simpa using hmatch)
        (fun j hj hjm => by
          have := hmin (j + 1) (by simpa using hj) (by simpa using hjm)
          omega)
      simpa [Nat.add_assoc, Nat.add_comm 1 k] using this

/-- On compiled patterns the loop of `Match` never panics. -/
theorem matchFrom_total {L : GoLib} (a : Aggregations L) (m : String) :
    ∀ (rest : List (Aggregation L)) (i : Nat), (∀ s ∈ rest, s.Pattern.isSome = true) →
      ∃ p, a.matchFrom m i rest = some p := by
  intro rest
  induction rest with
  | nil => intro i _; exact ⟨_, rfl⟩
  | cons s rest ih =>
    intro i hc
    cases hm : s.matches m with
    | true => exact ⟨_, matchFrom_cons_hit a m i s rest hm⟩
    | false =>
      rw [matchFrom_cons_skip a m i s rest (hc s (List.mem_cons_self _ _)) hm]
      exact ih (i + 1) (fun t ht => hc t (List.mem_cons_of_mem _ ht))

/-- On a rule set of any size with compiled patterns, `Match` returns a pair
for every metric. -/
theorem Match_total {L : GoLib} (a : Aggregations L) (m : String) (hc : a.Compiled) :
    ∃ p, a.Match m = some p :=
  matchFrom_total a m a.Data 0 hc

/-- Away from the largest index, `Get` clamps: an index at or past the end of
`Data` gives the default. -/
theorem Get_clamp_below_max {L : GoLib} (a : Aggregations L) (k : Fin 65536)
    (hlen : a.Data.length ≤ 65535) (hk : a.Data.length ≤ k.val) (hmax : k.val < 65535) :
    a.Get k = some a.DefaultAggregation := by
  have h1 : (uint16 (k.val + 1)).val = k.val + 1 := uint16_val_of_lt (by omega)
  have h2 : (uint16 a.Data.length).val = a.Data.length := uint16_val_of_lt (by omega)
  have : uint16 (k.val + 1) > uint16 a.Data.length := by
    show (uint16 a.Data.length).val < (uint16 (k.val + 1)).val
    omega
  simp [Aggregations.Get, this]

/-- An index below `len(a.Data)` reads that position of `Data`. -/
theorem Get_in_range {L : GoLib} (a : Aggregations L) (i : Fin 65536)
    (hlen : a.Data.length ≤ 65535) (hi : i.val < a.Data.length) :
    a.Get i = some a.Data[i.val] := by
  have h1 : (uint16 (i.val + 1)).val = i.val + 1 := uint16_val_of_lt (by omega)
  have h2 : (uint16 a.Data.length).val = a.Data.length := uint16_val_of_lt (by omega)
  have : ¬ uint16 (i.val + 1) > uint16 a.Data.length := by
    show ¬ (uint16 a.Data.length).val < (uint16 (i.val + 1)).val
    omega
  simp [Aggregations.Get, this, List.getElem?_eq_getElem hi]

/-- The index 65535 passes the guard of `Get`, since `i+1` wraps to 0, and
the index expression is out of range on every `Data` of at most 65535 rules. -/
theorem Get_max_index {L : GoLib} (a : Aggregations L) (hlen : a.Data.length ≤ 65535) :
    a.Get ⟨65535, by decide⟩ = none := by
  have : ¬ uint16 (65535 + 1) > uint16 a.Data.length := by
    show ¬ (uint16 a.Data.length).val < (uint16 (65535 + 1)).val
    have : (uint16 (65535 + 1)).val = 0 := rfl
    omega
  simp only [Aggregations.Get, this, if_false]
  exact List.getElem?_eq_none (by omega)

/-- On a rule set of at most 65535 rules with compiled patterns, when some
rule matches the metric or there are fewer than 65535 rules, `Match` returns a
pair and `Get` of its index is its rule. -/
theorem Get_Match_in_range {L : GoLib} (a : Aggregations L) (m : String)
    (hc : a.Compiled) (hlen : a.Data.length ≤ 65535)
    (hidx : a.Data.length < 65535 ∨ ∃ s ∈ a.Data, s.matches m = true) :
    ∃ p, a.Match m = some p ∧ a.Get p.1 = some p.2 := by
  by_cases h : ∃ k, ∃ hk : k < a.Data.length, a.Data[k].matches m = true
  · classical
    obtain ⟨hk, hkm⟩ := Nat.find_spec h
    have hmin : ∀ j (hj : j < a.Data.length), a.Data[j].matches m = true →
        Nat.find h ≤ j := fun j hj hjm => Nat.find_min' h ⟨hj, hjm⟩
    have hM := matchFrom_first a m a.Data 0 (Nat.find h) hk hc hkm hmin
    refine ⟨_, hM, ?_⟩
    have hlt : 0 + Nat.find h < 65536 := by omega
    rw [uint16_eq_mk hlt]
    have := Get_in_range a ⟨0 + Nat.find h, hlt⟩ hlen (by simpa using hk)
    simpa using this
  · have hno : ∀ s ∈ a.Data, s.matches m = false := by
      intro s hs
      obtain ⟨k, hk, rfl⟩ := List.getElem_of_mem hs
      cases hsm : a.Data[k].matches m with
      | false => rfl
      | true => exact absurd ⟨k, hk, hsm⟩ h
    have hlt : a.Data.length < 65535 := by
      rcases hidx with hlt | ⟨s, hs, hsm⟩
      · exact hlt
      · rw [hno s hs] at hsm
        cases hsm
    refine ⟨_, matchFrom_no_match a m a.Data 0 hc hno, ?_⟩
    exact Get_clamp_below_max a _ hlen
      (by rw [uint16_val_of_lt (by omega)]) (by rw [uint16_val_of_lt (by omega)]; exact hlt)

/-- At 65536 rules that all match the metric, `Match` returns the index 0 with
the first rule, and `Get` of the index 0 returns the default rule, because
`uint16(len(a.Data))` is 0 in the guard; the default rule is not the first
rule. -/
theorem Get_of_Match_index_at_65536_rules :
    example_env.overfullSet.Match "x" = some (⟨0, by decide⟩, example_env.ruleX) ∧
    example_env.overfullSet.Get ⟨0, by decide⟩
      = some (NewAggregations example_env.lib).DefaultAggregation ∧
    example_env.overfullSet.Get ⟨0, by decide⟩ ≠ some example_env.ruleX := by
  have hdata : example_env.overfullSet.Data
      = example_env.ruleX :: List.replicate 65535 example_env.ruleX :=
    List.replicate_succ example_env.ruleX 65535
  have hlen : example_env.overfullSet.Data.length = 65536 := List.length_replicate _ _
  have hget : example_env.overfullSet.Get ⟨0, by decide⟩
      = some (NewAggregations example_env.lib).DefaultAggregation := by
    have hgt : uint16 (0 + 1) > uint16 example_env.overfullSet.Data.length := by
      rw [hlen]
      decide
    simp only [Aggregations.Get, hgt, if_true]
    rfl
  refine ⟨?_, hget, ?_⟩
  · have h := matchFrom_cons_hit example_env.overfullSet "x" 0 example_env.ruleX
      (List.replicate 65535 example_env.ruleX) (by decide)
    unfold Aggregations.Match
    rw [hdata]
    exact h
  · rw [hget]
    intro h
    have hn := congrArg (Option.map Aggregation.Name) h
    revert hn
    decide

/-! ## ReadAggregations: auxiliary facts -/

/-- The method loop reports the first token that does not parse. -/
theorem errorOf_parseMethods (L : GoLib) (s : Section) :
    ∀ (ts : List String) (acc : List L.Method),
      errorOf (parseMethods L s.name ts acc) = (ts.map (s.methodCheck L)).findSome? id := by
  intro ts
  induction ts with
  | nil => intro acc; rfl
  | cons t ts ih =>
    intro acc
    cases h : L.NewMethod t with
    | error e =>
      have hc : s.methodCheck L t = some (s.methodMessage e) := by
        simp [Section.methodCheck, h, errorOf, Except.mapError]
      simp only [parseMethods, h, List.map_cons, List.findSome?_cons, id_eq, hc, errorOf,
        Section.methodMessage]
    | ok m =>
      have hc : s.methodCheck L t = none := by
        simp [Section.methodCheck, h, errorOf, Except.mapError]
      simp only [parseMethods, h, List.map_cons, List.findSome?_cons, id_eq, hc]
      exact ih _

/-- When every token parses, the method loop appends the methods in token
order. -/
theorem parseMethods_ok (L : GoLib) (name : String) :
    ∀ (ts : List String) (acc ms : List L.Method), methodsOf L ts = some ms →
      parseMethods L name ts acc = Except.ok (acc ++ ms) := by
  intro ts
  induction ts with
  | nil =>
    intro acc ms h
    simp [methodsOf] at h
    simp [parseMethods, ← h]
  | cons t ts ih =>
    intro acc ms h
    cases hm : L.NewMethod t with
    | error e => simp [methodsOf, hm] at h
    | ok m =>
      cases hts : methodsOf L ts with
      | none => simp [methodsOf, hm, hts] at h
      | some ms1 =>
        simp [methodsOf, hm, hts] at h
        simp [parseMethods, hm, ih (acc ++ [m]) ms1 hts, ← h]

/-- Tokens that all parse stand for a list of methods. -/
theorem methodsOf_isSome (L : GoLib) :
    ∀ ts : List String, ts.all (fun t => (L.NewMethod t).toOption.isSome) = true →
      ∃ ms, methodsOf L ts = some ms := by
  intro ts
  induction ts with
  | nil => intro _; exact ⟨[], rfl⟩
  | cons t ts ih =>
    intro h
    simp only [List.all_cons, Bool.and_eq_true] at h
    obtain ⟨ms, hms⟩ := ih h.2
    cases hm : L.NewMethod t with
    | error e => simp [hm, Except.toOption] at h
    | ok m => exact ⟨m :: ms, by simp [methodsOf, hm, hms]⟩

/-- A well-formed section stands for a rule. -/
theorem rule_of_wellFormed (L : GoLib) (s : Section) (h : s.wellFormed L = true) :
    ∃ re x ms, L.Compile (s.ValueOf "pattern") = Except.ok re ∧
      L.ParseFloat (s.ValueOf "xFilesFactor") = Except.ok x ∧
      methodsOf L s.methodStrs = some ms ∧
      s.rule L = some { Name := s.name, Pattern := some re, XFilesFactor := x,
                        AggregationMethod := ms } := by
  simp only [Section.wellFormed, Bool.and_eq_true] at h
  obtain ⟨⟨hp, hx⟩, hm⟩ := h
  obtain ⟨ms, hms⟩ := methodsOf_isSome L s.methodStrs hm
  cases hre : L.Compile (s.ValueOf "pattern") with
  | error e => simp [hre, Except.toOption] at hp
  | ok re =>
    cases hxx : L.ParseFloat (s.ValueOf "xFilesFactor") with
    | error e => simp [hxx, Except.toOption] at hx
    | ok x => exact ⟨re, x, ms, rfl, rfl, hms, by simp [Section.rule, hre, hxx, hms]⟩

/-- One turn of the section loop on a skipped section. -/
theorem readSections_cons_skipped (L : GoLib) (s : Section) (rest : List Section)
    (result : Aggregations L) (hs : s.skipped = true) :
    readSections L (s :: rest) result = readSections L rest result := by
  simp [readSections, hs]

/-- One turn of the section loop on a well-formed section that is a rule. -/
theorem readSections_cons_rule (L : GoLib) (s : Section) (rest : List Section)
    (result : Aggregations L) (r : Aggregation L) (hs : s.skipped = false)
    (hw : s.wellFormed L = true) (hr : s.rule L = some r) :
    readSections L (s :: rest) result
      = readSections L rest { result with Data := result.Data ++ [r] } := by
  obtain ⟨re, x, ms, hre, hx, hms, hrule⟩ := rule_of_wellFormed L s hw
  rw [hrule] at hr
  cases hr
  have hpm := parseMethods_ok L s.name s.methodStrs [] ms hms
  simp only [List.nil_append] at hpm
  simp [readSections, hs, hre, hx, hpm]

/-- The section loop on well-formed input: no error, and the rules of the
sections that are rules are appended in order. -/
theorem readSections_wellFormed (L : GoLib) :
    ∀ (secs : List Section) (result : Aggregations L),
      (∀ s ∈ secs, s.skipped = false → s.wellFormed L = true) →
      readSections L secs result
        = ({ result with
              Data := result.Data ++ (ruleSections secs).filterMap (Section.rule L) }, none) ∧
      ((ruleSections secs).filterMap (Section.rule L)).map some
        = (ruleSections secs).map (Section.rule L) := by
  intro secs
  induction secs with
  | nil => intro result _; simp [readSections, ruleSections]
  | cons s rest ih =>
    intro result hwf
    have hrest : ∀ t ∈ rest, t.skipped = false → t.wellFormed L = true :=
      fun t ht => hwf t (List.mem_cons_of_mem _ ht)
    cases hs : s.skipped with
    | true =>
      rw [readSections_cons_skipped L s rest result hs]
      have := ih result hrest
      simpa [ruleSections, hs] using this
    | false =>
      have hw := hwf s (List.mem_cons_self _ _) hs
      obtain ⟨re, x, ms, _, _, _, hrule⟩ := rule_of_wellFormed L s hw
      rw [readSections_cons_rule L s rest result _ hs hw hrule]
      have := ih { result with Data := result.Data ++
        [{ Name := s.name, Pattern := some re, XFilesFactor := x, AggregationMethod := ms }] }
        hrest
      simp only [ruleSections] at this ⊢
      simp [hs, hrule, this.1, this.2]

/-- The section loop does not see a skipped section. -/
theorem readSections_skip (L : GoLib) (s : Section) (post : List Section)
    (hs : s.skipped = true) :
    ∀ (pre : List Section) (result : Aggregations L),
      readSections L (pre ++ s :: post) result = readSections L (pre ++ post) result := by
  intro pre
  induction pre with
  | nil => intro result; simpa using readSections_cons_skipped L s post result hs
  | cons t pre ih =>
    intro result
    simp only [List.cons_append, readSections]
    split
    · exact ih _
    · split
      · rfl
      · split
        · rfl
        · split
          · rfl
          · exact ih _

/-- The error of the section loop is the first failing check, whatever the
rules gathered so far. -/
theorem readSections_error (L : GoLib) :
    ∀ (secs : List Section) (result : Aggregations L),
      (readSections L secs result).2 = firstError L secs := by
  intro secs
  induction secs with
  | nil => intro result; rfl
  | cons s rest ih =>
    intro result
    cases hs : s.skipped with
    | true =>
      rw [readSections_cons_skipped L s rest result hs, ih]
      simp [firstError, ruleSections, hs]
    | false =>
      have hfe : firstError L (s :: rest)
          = ((s.checks L).findSome? id).or (firstError L rest) := by
        simp [firstError, ruleSections, hs, List.findSome?_append]
      rw [hfe]
      cases hre : L.Compile (s.ValueOf "pattern") with
      | error e =>
        have hc : s.patternCheck L = some (s.patternMessage L e) := by
          simp [Section.patternCheck, hre, errorOf, Except.mapError]
        simp [readSections, hs, hre, Section.checks, hc, Section.patternMessage]
      | ok re =>
        have hc : s.patternCheck L = none := by
          simp [Section.patternCheck, hre, errorOf, Except.mapError]
        cases hx : L.ParseFloat (s.ValueOf "xFilesFactor") with
        | error e =>
          have hr : s.ratioCheck L = some (s.ratioMessage L e) := by
            simp [Section.ratioCheck, hx, errorOf, Except.mapError]
          simp [readSections, hs, hre, hx, Section.checks, hc, hr, Section.ratioMessage]
        | ok x =>
          have hr : s.ratioCheck L = none := by
            simp [Section.ratioCheck, hx, errorOf, Except.mapError]
          have hpm := errorOf_parseMethods L s s.methodStrs []
          have hck : (s.checks L).findSome? id
              = (s.methodStrs.map (s.methodCheck L)).findSome? id := by
            simp [Section.checks, hc, hr]
          rw [hck, ← hpm]
          cases hm : parseMethods L s.name s.methodStrs [] with
          | error e => simp [readSections, hs, hre, hx, hm, errorOf]
          | ok ms => simp [readSections, hs, hre, hx, hm, errorOf, ih]

/-- The section loop keeps the invariant of the data model: the rules it
appends carry the pattern it compiled. -/
theorem readSections_Compiled (L : GoLib) :
    ∀ (secs : List Section) (result : Aggregations L), result.Compiled →
      (readSections L secs result).1.Compiled := by
  intro secs
  induction secs with
  | nil => intro result h; exact h
  | cons s rest ih =>
    intro result h
    simp only [readSections]
    split
    · exact ih _ h
    · split
      · intro r hr; simp [Aggregations.zeroValue] at hr
      · split
        · intro r hr; simp [Aggregations.zeroValue] at hr
        · split
          · exact h
          · apply ih
            intro r hr
            simp only [List.mem_append, List.mem_singleton] at hr
            rcases hr with hr | rfl
            · exact h r hr
            · rfl

/-- Every rule set `ReadAggregations` returns has compiled patterns. -/
theorem ReadAggregations_Compiled (L : GoLib) (secs : List Section) :
    (ReadAggregations L secs).1.Compiled :=
  readSections_Compiled L secs (NewAggregations L) (by intro r hr; simp [NewAggregations] at hr)

/-! ## Match and Get: the claims -/

/-- C1 (index consistency) at a rule set of exactly 65535 rules none of which
matches the metric: `Match` returns the index 65535 with the default rule,
and `Get` of that index does not return the default rule: `i+1` wraps to 0,
the guard is not taken and the index expression panics out of range. -/
theorem Match_then_Get_at_65535_rules :
    example_env.fullSet.Match "a"
      = some (⟨65535, by decide⟩, example_env.fullSet.DefaultAggregation) ∧
    example_env.fullSet.Get ⟨65535, by decide⟩ = none := by
  have hlen : example_env.fullSet.Data.length = 65535 := List.length_replicate _ _
  have hmem : ∀ s ∈ example_env.fullSet.Data, s = example_env.ruleX :=
    fun s hs => List.eq_of_mem_replicate hs
  constructor
  · have h := matchFrom_no_match example_env.fullSet "a" example_env.fullSet.Data 0
      (fun s hs => by rw [hmem s hs]; rfl) (fun s hs => by rw [hmem s hs]; rfl)
    rw [hlen] at h
    exact h
  · exact Get_max_index _ (by omega)

/-- C2 (clamp) at the index 65535 on the rule set of `NewAggregations()`: the
index is past the end of the empty `Data`, yet `Get` does not return the
default rule, it panics with an index out of range. -/
theorem Get_NewAggregations_max_index (L : GoLib) :
    (NewAggregations L).Get ⟨65535, by decide⟩ = none :=
  Get_max_index _ (by simp [NewAggregations])

/-- C4 (first match wins): on a rule set of at most 65535 rules with compiled
patterns, when `i` is the smallest position whose pattern matches the metric,
`Match` returns `(i, Data[i])`; a later position `j` whose pattern matches
too is not the index returned. -/
theorem Match_first_match_wins {L : GoLib} (a : Aggregations L) (m : String) (i : Nat)
    (hc : a.Compiled) (hlen : a.Data.length ≤ 65535) (hi : i < a.Data.length)
    (hmatch : a.Data[i].matches m = true)
    (hmin : ∀ j (hj : j < a.Data.length), a.Data[j].matches m = true → i ≤ j) :
    a.Match m = some (⟨i, by omega⟩, a.Data[i]) ∧
    ∀ j (hj : j < a.Data.length), i < j → a.Data[j].matches m = true →
      ∀ p, a.Match m = some p → p.1.val ≠ j ∧ p.2 = a.Data[i] := by
  have hM : a.Match m = some (⟨i, by omega⟩, a.Data[i]) := by
    have h := matchFrom_first a m a.Data 0 i hi hc hmatch hmin
    have hlt : 0 + i < 65536 := by omega
    rw [uint16_eq_mk hlt] at h
    simpa [Aggregations.Match] using h
  refine ⟨hM, ?_⟩
  intro j _ hij _ p hp
  rw [hM] at hp
  cases hp
  exact ⟨by simp only; omega, rfl⟩

theorem Match_first_match_wins_witness :
    example_env.twoRules.Match "foo.bar" = some (⟨1, by decide⟩, example_env.ruleB) :=
  (Match_first_match_wins example_env.twoRules "foo.bar" 1 (by decide) (by decide) (by decide)
    (by decide) (by decide)).1

/-- C5 (default fallback): on a rule set of at most 65535 rules with compiled
patterns, when no pattern matches the metric, `Match` returns
`(len(Data), DefaultAggregation)`. -/
theorem Match_default_fallback {L : GoLib} (a : Aggregations L) (m : String)
    (hc : a.Compiled) (hlen : a.Data.length ≤ 65535)
    (hno : ∀ s ∈ a.Data, s.matches m = false) :
    a.Match m = some (⟨a.Data.length, by omega⟩, a.DefaultAggregation) := by
  have h := matchFrom_no_match a m a.Data 0 hc hno
  have hlt : a.Data.length < 65536 := by omega
  rw [uint16_eq_mk hlt] at h
  exact h

theorem Match_default_fallback_witness :
    ({ example_env.twoRules with Data := [example_env.ruleA, example_env.ruleX] } :
        Aggregations example_env.lib).Match "foo.bar"
      = some (⟨2, by decide⟩, (NewAggregations example_env.lib).DefaultAggregation) :=
  Match_default_fallback
    ({ example_env.twoRules with Data := [example_env.ruleA, example_env.ruleX] } :
        Aggregations example_env.lib) "foo.bar" (by decide) (by decide) (by decide)

/-- C6 (totality) fails in `Get`: on every rule set of at most 65535 rules the
index 65535 is not caught by the guard, since `i+1` wraps to 0, the index
expression `a.Data[i]` is reached with an index that is not below
`len(a.Data)`, and `Get` returns no rule. -/
theorem Get_index_out_of_range {L : GoLib} (a : Aggregations L)
    (hlen : a.Data.length ≤ 65535) :
    ¬ (uint16 (65535 + 1) > uint16 a.Data.length) ∧ ¬ (65535 < a.Data.length) ∧
    a.Get ⟨65535, by decide⟩ = none := by
  refine ⟨?_, by omega, Get_max_index a hlen⟩
  show ¬ (uint16 a.Data.length).val < (uint16 (65535 + 1)).val
  have : (uint16 (65535 + 1)).val = 0 := rfl
  omega

theorem Get_index_out_of_range_witness :
    example_env.twoRules.Get ⟨65535, by decide⟩ = none :=
  (Get_index_out_of_range example_env.twoRules (by decide)).2.2

/-- C7 (in-range lookup): on a rule set of at most 65535 rules, `Get` of an
index below `len(Data)` returns the rule stored at that position. -/
theorem Get_returns_stored_rule {L : GoLib} (a : Aggregations L) (i : Fin 65536)
    (hlen : a.Data.length ≤ 65535) (hi : i.val < a.Data.length) :
    a.Get i = some a.Data[i.val] :=
  Get_in_range a i hlen hi

theorem Get_returns_stored_rule_witness :
    example_env.twoRules.Get ⟨1, by decide⟩ = some example_env.ruleB :=
  Get_returns_stored_rule example_env.twoRules ⟨1, by decide⟩ (by decide) (by decide)

/-! ## ReadAggregations: the claims -/

/-- C3 (build atomicity) at the sections `[a]`, `[bad3]`: the method `bogus`
of the second section does not parse, and the rule set returned alongside the
error still holds the rule of the first section; on the sections `[a]`,
`[bad]`, whose error is a pattern error, the value returned is
`Aggregations{}`. -/
theorem ReadAggregations_method_error_keeps_rules :
    (ReadAggregations example_env.lib [example_env.secA, example_env.secBad3]).2
      = some "[bad3]: unknown aggregation method \"bogus\"" ∧
    (ReadAggregations example_env.lib [example_env.secA, example_env.secBad3]).1.Data
      = [example_env.ruleA] ∧
    (ReadAggregations example_env.lib [example_env.secA, example_env.secBad]).1
      = Aggregations.zeroValue example_env.lib :=
  ⟨by decide, rfl, rfl⟩

/-- C8 (round-trip count and order): when every section that is not skipped
is well-formed, the build returns no error, `Data` has one rule per such
section, and the rules are, in section order, the rules these sections stand
for: name, compiled pattern, ratio and methods in token order. -/
theorem ReadAggregations_round_trip (L : GoLib) (secs : List Section)
    (hwf : ∀ s ∈ secs, s.skipped = false → s.wellFormed L = true) :
    (ReadAggregations L secs).2 = none ∧
    (ReadAggregations L secs).1.Data.length = (ruleSections secs).length ∧
    (ReadAggregations L secs).1.Data.map some = (ruleSections secs).map (Section.rule L) := by
  obtain ⟨h1, h2⟩ := readSections_wellFormed L secs (NewAggregations L) hwf
  have hd : (ReadAggregations L secs).1.Data
      = (ruleSections secs).filterMap (Section.rule L) := by
    unfold ReadAggregations
    rw [h1]
    simp [NewAggregations]
  refine ⟨by unfold ReadAggregations; rw [h1], ?_, by rw [hd, h2]⟩
  have := congrArg List.length (hd ▸ h2)
  simpa using this

theorem ReadAggregations_round_trip_witness :
    (ReadAggregations example_env.lib
      [example_env.secA, example_env.secComment, example_env.secB]).2 = none ∧
    (ReadAggregations example_env.lib
      [example_env.secA, example_env.secComment, example_env.secB]).1.Data.map some
      = [some example_env.ruleA, some example_env.ruleB] :=
  ⟨(ReadAggregations_round_trip example_env.lib
      [example_env.secA, example_env.secComment, example_env.secB] (by decide)).1,
   (ReadAggregations_round_trip example_env.lib
      [example_env.secA, example_env.secComment, example_env.secB] (by decide)).2.2⟩

/-- C9 (skipped sections): a section whose name is empty or begins with `#`
can be removed from the sequence without changing what the build returns,
rule set and error alike, whatever the values of the section are. -/
theorem ReadAggregations_skips_section (L : GoLib) (pre post : List Section) (s : Section)
    (hs : s.name = "" ∨ strings.HasPrefix s.name "#" = true) :
    ReadAggregations L (pre ++ s :: post) = ReadAggregations L (pre ++ post) := by
  have hsk : s.skipped = true := by
    simpa [Section.skipped] using hs
  exact readSections_skip L s post hsk pre (NewAggregations L)

theorem ReadAggregations_skips_section_witness :
    ReadAggregations example_env.lib
        ([example_env.secA] ++ example_env.secComment :: [example_env.secB])
      = ReadAggregations example_env.lib ([example_env.secA] ++ [example_env.secB]) :=
  ReadAggregations_skips_section example_env.lib [example_env.secA] [example_env.secB]
    example_env.secComment (by decide)

/-- C10 (fail-fast order): the error the build returns is the error of the
first failing check, taken over the sections that are rules in section order
and within a section in the order pattern, xFilesFactor, method tokens from
left to right; sections that follow leave an error unchanged. -/
theorem ReadAggregations_fail_fast (L : GoLib) (secs post : List Section) :
    (ReadAggregations L secs).2 = firstError L secs ∧
    (ReadAggregations L (secs ++ post)).2
      = ((ReadAggregations L secs).2).or (ReadAggregations L post).2 := by
  refine ⟨readSections_error L secs _, ?_⟩
  simp only [ReadAggregations, readSections_error]
  simp [firstError, ruleSections, List.findSome?_append]

/-! ## The default rule and appended rules: auxiliary facts -/

/-- Rules appended after a rule that matches are not reached by the loop of
`Match`; the rule set of the `return` after the loop is not reached either. -/
theorem matchFrom_append {L : GoLib} (a b : Aggregations L) (m : String)
    (extra : List (Aggregation L)) :
    ∀ (rest : List (Aggregation L)) (i : Nat), (∃ s ∈ rest, s.matches m = true) →
      b.matchFrom m i (rest ++ extra) = a.matchFrom m i rest := by
  intro rest
  induction rest with
  | nil => intro i h; simp at h
  | cons s rest ih =>
    intro i h
    cases hp : s.Pattern with
    | none => simp [Aggregations.matchFrom, hp]
    | some re =>
      cases hre : L.MatchString re m with
      | true => simp [Aggregations.matchFrom, hp, hre]
      | false =>
        have hs : s.matches m = false := by simp [Aggregation.matches, hp, hre]
        have hrest : ∃ t ∈ rest, t.matches m = true := by
          obtain ⟨t, ht, htm⟩ := h
          rcases List.mem_cons.mp ht with rfl | ht
          · rw [hs] at htm
            cases htm
          · exact ⟨t, ht, htm⟩
        simpa [Aggregations.matchFrom, hp, hre] using ih (i + 1) hrest

/-- The section loop leaves the default rule as it is whenever it returns no
error. -/
theorem readSections_default (L : GoLib) :
    ∀ (secs : List Section) (result : Aggregations L),
      (readSections L secs result).2 = none →
      (readSections L secs result).1.DefaultAggregation = result.DefaultAggregation := by
  intro secs
  induction secs with
  | nil => intro result _; rfl
  | cons s rest ih =>
    intro result
    simp only [readSections]
    split
    · exact ih _
    · split
      · intro h; cases h
      · split
        · intro h; cases h
        · split
          · intro h; cases h
          · intro h; exact ih _ h

/-! ## The default rule and appended rules: the claims -/

/-- C11 (NewAggregations): the rule set has no rules; its default rule has
the name `default`, the ratio 0.5, the one method `Avg` and the compiled
pattern `.*`, which matches every string; the default rule is not among the
rules. -/
theorem NewAggregations_default_rule (L : GoLib) :
    (NewAggregations L).Data = [] ∧
    (NewAggregations L).DefaultAggregation.Name = "default" ∧
    (NewAggregations L).DefaultAggregation.XFilesFactor = L.half ∧
    (NewAggregations L).DefaultAggregation.AggregationMethod = [L.Avg] ∧
    (∃ re, (NewAggregations L).DefaultAggregation.Pattern = some re ∧
      L.Compile ".*" = Except.ok re) ∧
    (∀ metric : String, (NewAggregations L).DefaultAggregation.matches metric = true) ∧
    (NewAggregations L).DefaultAggregation ∉ (NewAggregations L).Data :=
  ⟨rfl, rfl, rfl, rfl, ⟨L.dotStar, rfl, L.Compile_dotStar⟩,
    fun metric => L.MatchString_dotStar metric, by simp [NewAggregations]⟩

/-- C12 (empty config): on no sections the build returns no error and the
rule set of `NewAggregations()`, whose `Data` is empty, and `Match` on it
returns the index 0 with the default rule for every metric. -/
theorem ReadAggregations_no_sections (L : GoLib) (metric : String) :
    ReadAggregations L [] = (NewAggregations L, none) ∧
    (ReadAggregations L []).1.Data = [] ∧
    (ReadAggregations L []).1.Match metric
      = some (⟨0, by decide⟩, (NewAggregations L).DefaultAggregation) :=
  ⟨rfl, rfl, rfl⟩

/-- C16 (appending rules): when some rule of `Data` matches the metric,
`Match` on the rule set with further rules appended returns what `Match`
returns without them; with compiled patterns that is a pair of an index and a
rule. -/
theorem Match_append_rules {L : GoLib} (a : Aggregations L) (extra : List (Aggregation L))
    (m : String) (h : ∃ s ∈ a.Data, s.matches m = true) :
    ({ a with Data := a.Data ++ extra } : Aggregations L).Match m = a.Match m ∧
    (a.Compiled → ∃ p, a.Match m = some p ∧
      ({ a with Data := a.Data ++ extra } : Aggregations L).Match m = some p) := by
  have heq : ({ a with Data := a.Data ++ extra } : Aggregations L).Match m = a.Match m :=
    matchFrom_append a { a with Data := a.Data ++ extra } m extra a.Data 0 h
  refine ⟨heq, fun hc => ?_⟩
  obtain ⟨p, hp⟩ := matchFrom_total a m a.Data 0 hc
  exact ⟨p, hp, heq.trans hp⟩

theorem Match_append_rules_witness :
    ({ example_env.twoRules with
        Data := example_env.twoRules.Data ++ [example_env.ruleX, example_env.ruleB] } :
      Aggregations example_env.lib).Match "server.cpu.load"
      = example_env.twoRules.Match "server.cpu.load" :=
  (Match_append_rules example_env.twoRules [example_env.ruleX, example_env.ruleB]
    "server.cpu.load" ⟨example_env.ruleA, List.Mem.head _, by decide⟩).1

/-- C17 (the default rule is kept): when the build returns no error, the
default rule of its rule set is the default rule of `NewAggregations()`, with
the name `default`, the ratio 0.5 and the one method `Avg`, whatever the
sections and their names are. -/
theorem ReadAggregations_keeps_default (L : GoLib) (secs : List Section)
    (h : (ReadAggregations L secs).2 = none) :
    (ReadAggregations L secs).1.DefaultAggregation = (NewAggregations L).DefaultAggregation ∧
    (ReadAggregations L secs).1.DefaultAggregation.Name = "default" ∧
    (ReadAggregations L secs).1.DefaultAggregation.XFilesFactor = L.half ∧
    (ReadAggregations L secs).1.DefaultAggregation.AggregationMethod = [L.Avg] := by
  have hd := readSections_default L secs (NewAggregations L) h
  have hd2 : (ReadAggregations L secs).1.DefaultAggregation
      = (NewAggregations L).DefaultAggregation := hd
  exact ⟨hd2, by rw [hd2]; rfl, by rw [hd2]; rfl, by rw [hd2]; rfl⟩

theorem ReadAggregations_keeps_default_witness :
    (ReadAggregations example_env.lib
        [example_env.secA, example_env.secDefault]).1.DefaultAggregation
      = (NewAggregations example_env.lib).DefaultAggregation ∧
    (ReadAggregations example_env.lib
        [example_env.secA, example_env.secDefault]).1.Data.map Aggregation.Name
      = ["a", "default"] :=
  ⟨(ReadAggregations_keeps_default example_env.lib
      [example_env.secA, example_env.secDefault] (by decide)).1, by decide⟩

/-! ## The rules of a build: auxiliary facts -/

/-- A list that starts like one of its prefixes. -/
theorem head?_of_prefix {α : Type} {t l : List α} {c : α} (hp : t <+: l)
    (h : t.head? = some c) : l.head? = some c := by
  obtain ⟨r, rfl⟩ := hp
  cases t with
  | nil => simp at h
  | cons x t => simpa using h

/-- A character of the cutset is neither the first nor the last character of
what `strings.Trim` returns. -/
theorem Trim_head_last (s cutset : String) (c : Char)
    (hc : cutset.data.contains c = true) :
    (strings.Trim s cutset).data.head? ≠ some c ∧
    (strings.Trim s cutset).data.getLast? ≠ some c := by
  have hdata : (strings.Trim s cutset).data
      = ((s.data.dropWhile fun c => cutset.data.contains c).rdropWhile
          fun c => cutset.data.contains c) := rfl
  constructor
  · intro h
    rw [hdata] at h
    have h2 := head?_of_prefix (List.rdropWhile_prefix _ _) h
    have h1 := List.head?_dropWhile_not (fun c => cutset.data.contains c) s.data
    rw [h2] at h1
    simp only [hc] at h1
    cases h1
  · intro h
    rw [hdata, List.rdropWhile, List.getLast?_reverse] at h
    have h1 := List.head?_dropWhile_not (fun c => cutset.data.contains c)
      (s.data.dropWhile fun c => cutset.data.contains c).reverse
    rw [h] at h1
    simp only [hc] at h1
    cases h1

/-- A text that `strings.HasPrefix` finds not to begin with `#` has no `#` as
its first character. -/
theorem head?_of_not_HasPrefix (s : String) (h : strings.HasPrefix s "#" = false) :
    s.data.head? ≠ some '#' := by
  intro hh
  cases hd : s.data with
  | nil => simp [hd] at hh
  | cons x t =>
    rw [hd] at hh
    have hx : x = '#' := by simpa using hh
    have : strings.HasPrefix s "#" = true := by
      have h1 : "#".data = ['#'] := rfl
      simp [strings.HasPrefix, hd, h1, hx, List.isPrefixOf]
    rw [h] at this
    cases this

/-- The name of a section that is not skipped: not empty, no `#` in front, no
space or bracket at either end. -/
theorem name_of_not_skipped (s : Section) (h : s.skipped = false) :
    s.name ≠ "" ∧ s.name.data.head? ≠ some '#' ∧
    ∀ c : Char, c = ' ' ∨ c = '[' ∨ c = ']' →
      s.name.data.head? ≠ some c ∧ s.name.data.getLast? ≠ some c := by
  simp only [Section.skipped, Bool.or_eq_false_iff, decide_eq_false_iff_not] at h
  refine ⟨h.1, head?_of_not_HasPrefix _ h.2, ?_⟩
  intro c hc
  have hcut : " []".data.contains c = true := by
    rcases hc with rfl | rfl | rfl <;> decide
  exact Trim_head_last _ " []" c hcut

/-- The method loop returns the methods of the tokens after the methods it
started with. -/
theorem methodsOf_of_parseMethods (L : GoLib) (name : String) :
    ∀ (ts : List String) (acc ms : List L.Method),
      parseMethods L name ts acc = Except.ok ms →
      ∃ ms1, methodsOf L ts = some ms1 ∧ ms = acc ++ ms1 := by
  intro ts
  induction ts with
  | nil =>
    intro acc ms h
    simp only [parseMethods, Except.ok.injEq] at h
    exact ⟨[], rfl, by simp [h]⟩
  | cons t ts ih =>
    intro acc ms h
    cases hm : L.NewMethod t with
    | error e => simp [parseMethods, hm] at h
    | ok m =>
      simp only [parseMethods, hm] at h
      obtain ⟨ms1, h1, h2⟩ := ih (acc ++ [m]) ms h
      exact ⟨m :: ms1, by simp [methodsOf, hm, h1], by simp [h2]⟩

/-- One method per token. -/
theorem methodsOf_length (L : GoLib) :
    ∀ (ts : List String) (ms : List L.Method), methodsOf L ts = some ms →
      ms.length = ts.length := by
  intro ts
  induction ts with
  | nil => intro ms h; simp [methodsOf] at h; simp [← h]
  | cons t ts ih =>
    intro ms h
    cases hm : L.NewMethod t with
    | error e => simp [methodsOf, hm] at h
    | ok m =>
      cases hts : methodsOf L ts with
      | none => simp [methodsOf, hm, hts] at h
      | some ms1 =>
        simp [methodsOf, hm, hts] at h
        simp [← h, ih ms1 hts]

/-- The slice `methodStrs` of a section has at least one token. -/
theorem methodStrs_ne_nil (s : Section) : s.methodStrs ≠ [] := by
  simpa [Section.methodStrs, strings.Split] using
    genSplit_ne_nil ',' ((s.ValueOf "aggregationMethod").data.count ',')
      (s.ValueOf "aggregationMethod").data

/-- A property of rules holds of every rule the section loop returns, with or
without an error, when it holds of the rules gathered so far and of every rule
the loop builds from a section. -/
theorem readSections_Data_forall (L : GoLib) (P : Aggregation L → Prop) :
    ∀ (secs : List Section) (result : Aggregations L),
      (∀ s ∈ secs, ∀ re x ms, s.skipped = false →
        parseMethods L s.name s.methodStrs [] = Except.ok ms →
        P { Name := s.name, Pattern := some re, XFilesFactor := x, AggregationMethod := ms }) →
      (∀ r ∈ result.Data, P r) →
      ∀ r ∈ (readSections L secs result).1.Data, P r := by
  intro secs
  induction secs with
  | nil => intro result _ h; exact h
  | cons s rest ih =>
    intro result hP h
    have hrest := fun t ht => hP t (List.mem_cons_of_mem _ ht)
    cases hs : s.skipped with
    | true =>
      rw [readSections_cons_skipped L s rest result hs]
      exact ih result hrest h
    | false =>
      cases hre : L.Compile (s.ValueOf "pattern") with
      | error e =>
        intro r hr
        simp [readSections, hs, hre, Aggregations.zeroValue] at hr
      | ok re =>
        cases hx : L.ParseFloat (s.ValueOf "xFilesFactor") with
        | error e =>
          intro r hr
          simp [readSections, hs, hre, hx, Aggregations.zeroValue] at hr
        | ok x =>
          cases hms : parseMethods L s.name s.methodStrs [] with
          | error e =>
            intro r hr
            simp only [readSections, hs, hre, hx, hms] at hr
            exact h r (by simpa using hr)
          | ok ms =>
            have hstep : readSections L (s :: rest) result
                = readSections L rest
                    { result with
                      Data := result.Data ++
                        [{ Name := s.name, Pattern := some re, XFilesFactor := x,
                           AggregationMethod := ms }] } := by
              simp [readSections, hs, hre, hx, hms]
            rw [hstep]
            apply ih _ hrest
            intro r hr
            simp only [List.mem_append, List.mem_singleton] at hr
            rcases hr with hr | rfl
            · exact h r hr
            · exact hP s (List.mem_cons_self _ _) re x ms hs hms

/-! ## The rules of a build: the claims -/

/-- C14 (non-empty methods): splitting on commas gives at least one token for
every section, the single empty token for an empty value; every rule of the
rule set the build returns has the methods its section's tokens parse to, one
per token, so at least one. -/
theorem ReadAggregations_methods_nonempty (L : GoLib) (secs : List Section) :
    (∀ s : Section, s.methodStrs ≠ []) ∧
    strings.Split "" ',' = [""] ∧
    ∀ r ∈ (ReadAggregations L secs).1.Data,
      r.AggregationMethod ≠ [] ∧
      ∃ s ∈ secs, r.Name = s.name ∧ methodsOf L s.methodStrs = some r.AggregationMethod ∧
        r.AggregationMethod.length = s.methodStrs.length := by
  refine ⟨methodStrs_ne_nil, rfl, ?_⟩
  refine readSections_Data_forall L
    (fun r => r.AggregationMethod ≠ [] ∧
      ∃ s ∈ secs, r.Name = s.name ∧ methodsOf L s.methodStrs = some r.AggregationMethod ∧
        r.AggregationMethod.length = s.methodStrs.length)
    secs (NewAggregations L) ?_ ?_
  · intro s hs re x ms _ hms
    obtain ⟨ms1, h1, h2⟩ := methodsOf_of_parseMethods L s.name s.methodStrs [] ms hms
    simp only [List.nil_append] at h2
    subst h2
    have hlen := methodsOf_length L s.methodStrs ms h1
    refine ⟨?_, s, hs, rfl, h1, hlen⟩
    intro hnil
    have h0 : s.methodStrs.length = 0 := by
      simp only at hnil
      rw [← hlen, hnil]
      rfl
    exact methodStrs_ne_nil s (List.length_eq_zero.mp h0)
  · intro r hr
    simp [NewAggregations] at hr

theorem ReadAggregations_methods_nonempty_witness :
    example_env.ruleB.AggregationMethod ≠ [] :=
  ((ReadAggregations_methods_nonempty example_env.lib
      [example_env.secA, example_env.secB]).2.2
    example_env.ruleB (List.Mem.tail _ (List.Mem.head _))).1

/-- C15 (rule names): every rule of the rule set the build returns, with or
without an error, has a name that is not empty, does not begin with `#`, and
has no space, `[` or `]` as its first or its last character. -/
theorem ReadAggregations_rule_names (L : GoLib) (secs : List Section) :
    ∀ r ∈ (ReadAggregations L secs).1.Data,
      r.Name ≠ "" ∧ r.Name.data.head? ≠ some '#' ∧
      ∀ c : Char, c = ' ' ∨ c = '[' ∨ c = ']' →
        r.Name.data.head? ≠ some c ∧ r.Name.data.getLast? ≠ some c := by
  refine readSections_Data_forall L
    (fun r => r.Name ≠ "" ∧ r.Name.data.head? ≠ some '#' ∧
      ∀ c : Char, c = ' ' ∨ c = '[' ∨ c = ']' →
        r.Name.data.head? ≠ some c ∧ r.Name.data.getLast? ≠ some c)
    secs (NewAggregations L) ?_ ?_
  · intro s _ re x ms hs _
    exact name_of_not_skipped s hs
  · intro r hr
    simp [NewAggregations] at hr

theorem ReadAggregations_rule_names_witness :
    (ReadAggregations example_env.lib [example_env.secA, example_env.secBad3]).2
      = some "[bad3]: unknown aggregation method \"bogus\"" ∧
    example_env.ruleA.Name ≠ "" ∧ example_env.ruleA.Name.data.head? ≠ some '#' :=
  ⟨by decide,
   (ReadAggregations_rule_names example_env.lib [example_env.secA, example_env.secBad3]
      example_env.ruleA (List.Mem.head _)).1,
   (ReadAggregations_rule_names example_env.lib [example_env.secA, example_env.secBad3]
      example_env.ruleA (List.Mem.head _)).2.1⟩

/-! ## The error messages: auxiliary facts -/

/-- The search of `strings.Contains` finds exactly the infixes. -/
theorem occurs_iff (p : List Char) : ∀ l : List Char, strings.occurs p l = true ↔ p <:+: l := by
  intro l
  induction l with
  | nil =>
    simp only [strings.occurs, List.infix_nil]
    cases p <;> simp [List.isPrefixOf]
  | cons c cs ih =>
    simp only [strings.occurs, Bool.or_eq_true, List.infix_cons_iff, ih,
      List.isPrefixOf_iff_prefix]

/-- A text contains each piece it is put together from. -/
theorem Contains_of_eq (e a p b : String) (h : e = a ++ p ++ b) :
    strings.Contains e p = true := by
  rw [strings.Contains, occurs_iff]
  exact ⟨a.data, b.data, by rw [h]; simp [String.data_append]⟩

/-- What a part of a text contains, the text contains. -/
theorem Contains_trans (e r t : String) (h1 : strings.Contains e r = true)
    (h2 : strings.Contains r t = true) : strings.Contains e t = true := by
  rw [strings.Contains, occurs_iff] at *
  exact h2.trans h1

/-- An error of the method loop is the error of `NewMethod` on one of the
tokens, after the rule name in brackets. -/
theorem parseMethods_error (L : GoLib) (name : String) :
    ∀ (ts : List String) (acc : List L.Method) (e : String),
      parseMethods L name ts acc = Except.error e →
      ∃ t ∈ ts, ∃ r, L.NewMethod t = Except.error r ∧ e = "[" ++ name ++ "]: " ++ r := by
  intro ts
  induction ts with
  | nil => intro acc e h; simp [parseMethods] at h
  | cons t ts ih =>
    intro acc e h
    cases hm : L.NewMethod t with
    | error r =>
      simp only [parseMethods, hm, Except.error.injEq] at h
      exact ⟨t, List.mem_cons_self _ _, r, hm, h.symm⟩
    | ok m =>
      simp only [parseMethods, hm] at h
      obtain ⟨t1, ht1, r, hr, he⟩ := ih (acc ++ [m]) e h
      exact ⟨t1, List.mem_cons_of_mem _ ht1, r, hr, he⟩

/-- An error of the section loop comes from a section that is a rule: its
message contains the name of the section and, by the kind of the error, the
quoted pattern, the quoted xFilesFactor, or the error of `NewMethod` on a
token. -/
theorem readSections_error_message (L : GoLib) :
    ∀ (secs : List Section) (result : Aggregations L) (e : String),
      (readSections L secs result).2 = some e →
      ∃ s ∈ secs, s.skipped = false ∧ strings.Contains e s.name = true ∧
        ((∃ r, L.Compile (s.ValueOf "pattern") = Except.error r ∧
            strings.Contains e (L.Quote (s.ValueOf "pattern")) = true) ∨
         (∃ r, L.ParseFloat (s.ValueOf "xFilesFactor") = Except.error r ∧
            strings.Contains e (L.Quote (s.ValueOf "xFilesFactor")) = true) ∨
         (∃ t ∈ s.methodStrs, ∃ r, L.NewMethod t = Except.error r ∧
            strings.Contains e r = true ∧
            (strings.Contains r t = true → strings.Contains e t = true))) := by
  intro secs
  induction secs with
  | nil => intro result e h; simp [readSections] at h
  | cons s rest ih =>
    intro result e h
    have lift : ∀ result1, (readSections L rest result1).2 = some e → _ :=
      fun result1 h1 =>
        let ⟨s1, hs1, hrest⟩ := ih result1 e h1
        (⟨s1, List.mem_cons_of_mem _ hs1, hrest⟩ :
          ∃ s1 ∈ s :: rest, s1.skipped = false ∧ strings.Contains e s1.name = true ∧
            ((∃ r, L.Compile (s1.ValueOf "pattern") = Except.error r ∧
                strings.Contains e (L.Quote (s1.ValueOf "pattern")) = true) ∨
             (∃ r, L.ParseFloat (s1.ValueOf "xFilesFactor") = Except.error r ∧
                strings.Contains e (L.Quote (s1.ValueOf "xFilesFactor")) = true) ∨
             (∃ t ∈ s1.methodStrs, ∃ r, L.NewMethod t = Except.error r ∧
                strings.Contains e r = true ∧
                (strings.Contains r t = true → strings.Contains e t = true))))
    cases hs : s.skipped with
    | true =>
      rw [readSections_cons_skipped L s rest result hs] at h
      exact lift result h
    | false =>
      cases hre : L.Compile (s.ValueOf "pattern") with
      | error r =>
        have he : "[" ++ s.name ++ "]: failed to parse pattern "
            ++ L.Quote (s.ValueOf "pattern") ++ ": " ++ r = e := by
          simpa [readSections, hs, hre] using h
        refine ⟨s, List.mem_cons_self _ _, hs, ?_, Or.inl ⟨r, hre, ?_⟩⟩
        · exact Contains_of_eq e "[" s.name
            ("]: failed to parse pattern " ++ L.Quote (s.ValueOf "pattern") ++ ": " ++ r)
            (by rw [← he]; simp [String.append_assoc])
        · exact Contains_of_eq e ("[" ++ s.name ++ "]: failed to parse pattern ")
            (L.Quote (s.ValueOf "pattern")) (": " ++ r)
            (by rw [← he]; simp [String.append_assoc])
      | ok re =>
        cases hx : L.ParseFloat (s.ValueOf "xFilesFactor") with
        | error r =>
          have he : "[" ++ s.name ++ "]: failed to parse xFilesFactor "
              ++ L.Quote (s.ValueOf "xFilesFactor") ++ ": " ++ r = e := by
            simpa [readSections, hs, hre, hx] using h
          refine ⟨s, List.mem_cons_self _ _, hs, ?_, Or.inr (Or.inl ⟨r, hx, ?_⟩)⟩
          · exact Contains_of_eq e "[" s.name
              ("]: failed to parse xFilesFactor " ++ L.Quote (s.ValueOf "xFilesFactor")
                ++ ": " ++ r)
              (by rw [← he]; simp [String.append_assoc])
          · exact Contains_of_eq e ("[" ++ s.name ++ "]: failed to parse xFilesFactor ")
              (L.Quote (s.ValueOf "xFilesFactor")) (": " ++ r)
              (by rw [← he]; simp [String.append_assoc])
        | ok x =>
          cases hms : parseMethods L s.name s.methodStrs [] with
          | error e1 =>
            have h : e1 = e := by simpa [readSections, hs, hre, hx, hms] using h
            subst h
            obtain ⟨t, ht, r, hr, he⟩ := parseMethods_error L s.name s.methodStrs [] e1 hms
            have hcr : strings.Contains e1 r = true :=
              Contains_of_eq e1 ("[" ++ s.name ++ "]: ") r ""
                (by rw [he]; simp [String.append_empty])
            refine ⟨s, List.mem_cons_self _ _, hs, ?_,
              Or.inr (Or.inr ⟨t, ht, r, hr, hcr, fun hrt => Contains_trans e1 r t hcr hrt⟩)⟩
            exact Contains_of_eq e1 "[" s.name ("]: " ++ r)
              (by rw [he]; simp [String.append_assoc])
          | ok ms =>
            have hstep : readSections L (s :: rest) result
                = readSections L rest
                    { result with
                      Data := result.Data ++
                        [{ Name := s.name, Pattern := some re, XFilesFactor := x,
                           AggregationMethod := ms }] } := by
              simp [readSections, hs, hre, hx, hms]
            rw [hstep] at h
            exact lift _ h

/-! ## The error messages: the claims -/

/-- C13 (error messages) as stated fails at the section `[r]` whose
xFilesFactor is `0`, backslash, `5`: the message of the ratio error holds the
value as the verb `%q` renders it, with the backslash doubled, and does not
contain the three characters of the value itself. -/
theorem ReadAggregations_ratio_message_escapes_value :
    (ReadAggregations example_env.lib [example_env.secBackslash]).2
      = some ("[r]: failed to parse xFilesFactor \"0\\\\5\": "
          ++ "strconv.ParseFloat: parsing \"0\\\\5\": invalid syntax") ∧
    example_env.secBackslash.ValueOf "xFilesFactor" = "0\\5" ∧
    strings.Contains ("[r]: failed to parse xFilesFactor \"0\\\\5\": "
          ++ "strconv.ParseFloat: parsing \"0\\\\5\": invalid syntax") "0\\5" = false := by
  decide

/-- C13 (error messages), amended: an error of the build comes from a section
that is a rule, and its message contains the name of that section together
with, for a pattern error, the pattern as `%q` renders it, for a ratio error,
the xFilesFactor as `%q` renders it, and for a method error, the error text
of `NewMethod` on the offending token, hence the token itself when that text
contains it. -/
theorem ReadAggregations_error_message (L : GoLib) (secs : List Section) (e : String)
    (h : (ReadAggregations L secs).2 = some e) :
    ∃ s ∈ secs, s.skipped = false ∧ strings.Contains e s.name = true ∧
      ((∃ r, L.Compile (s.ValueOf "pattern") = Except.error r ∧
          strings.Contains e (L.Quote (s.ValueOf "pattern")) = true) ∨
       (∃ r, L.ParseFloat (s.ValueOf "xFilesFactor") = Except.error r ∧
          strings.Contains e (L.Quote (s.ValueOf "xFilesFactor")) = true) ∨
       (∃ t ∈ s.methodStrs, ∃ r, L.NewMethod t = Except.error r ∧
          strings.Contains e r = true ∧
          (strings.Contains r t = true → strings.Contains e t = true))) :=
  readSections_error_message L secs (NewAggregations L) e h

theorem ReadAggregations_error_message_witness :
    (∃ s ∈ [example_env.secA, example_env.secBad3], s.skipped = false ∧
      strings.Contains "[bad3]: unknown aggregation method \"bogus\"" s.name = true) ∧
    strings.Contains "[bad3]: unknown aggregation method \"bogus\"" "bogus" = true :=
  ⟨(ReadAggregations_error_message example_env.lib
      [example_env.secA, example_env.secBad3]
      "[bad3]: unknown aggregation method \"bogus\"" (by decide)).imp
    (fun _ hs => ⟨hs.1, hs.2.1, hs.2.2.1⟩),
   by decide⟩

end conf
